import Mathlib

-- Verification of the jn-ec-master EtherCAT master runtime: a shallow
-- embedding of the facade's cyclic-exchange error policy, the public state
-- enumeration, the PDI serialization codec, the process-data mapping engine,
-- the emergency deduplication channel, the watchdog pre-gate of requestState,
-- and the mailbox toggle protocol, together with theorems settling the
-- specified properties.

namespace JnEcMaster

/-- Public AL-state enumeration from src/types/ec_types.ts (enum SlaveState). -/
inductive SlaveState
  | INIT
  | PRE_OP
  | SAFE_OP
  | OP
deriving DecidableEq

/-- Numeric value assigned to each member by the TypeScript enum
(INIT = 0, PRE_OP = 1, SAFE_OP = 2, OP = 3 in ec_types.ts). -/
def SlaveState.toNat : SlaveState → Nat
  | .INIT => 0
  | .PRE_OP => 1
  | .SAFE_OP => 2
  | .OP => 3

/-- Ride-through threshold: EcMaster.MAX_MISSED_CYCLES = 5 (ec_master.ts). -/
def MAX_MISSED_CYCLES : Nat := 5

/-- Observable outcome of one runCycle call: a value returned to the caller,
or one of the three throw sites of the error-handling block (the FfiError
with the "Connection lost" message on escalated -2, the PdoIntegrityError on
escalated -4, and the FfiError on any other negative driver code). -/
inductive CycleOutcome
  | ret (wkc : Int)
  | fatalCommsLost
  | fatalPdoIntegrity
  | fatalDriver (code : Int)
deriving DecidableEq

/-- Error-handling core of EcMaster.runCycle (ec_master.ts step 4): given the
missedCycleCount before the call and the signed driver result, produce the
counter after the call and the observable outcome.  Mirrors the source: on -2
or -4 the counter is incremented first and the fatal escalation fires when the
incremented counter has reached MAX_MISSED_CYCLES; any other negative code is
fatal at once without touching the counter; a non-negative result resets the
counter to 0 and is returned. -/
def rideThroughStep (missed : Nat) (wkc : Int) : Nat × CycleOutcome :=
  if wkc < 0 then
    if wkc = -2 then
      let m := missed + 1
      if MAX_MISSED_CYCLES ≤ m then (m, .fatalCommsLost) else (m, .ret (-2))
    else if wkc = -4 then
      let m := missed + 1
      if MAX_MISSED_CYCLES ≤ m then (m, .fatalPdoIntegrity) else (m, .ret (-4))
    else (missed, .fatalDriver wkc)
  else (0, .ret wkc)

/-- Thread the ride-through state through a sequence of driver results,
collecting the outcome of each runCycle call. -/
def rideThroughRun (missed : Nat) : List Int → Nat × List CycleOutcome
  | [] => (missed, [])
  | r :: rs =>
    let p := rideThroughStep missed r
    let q := rideThroughRun p.1 rs
    (q.1, p.2 :: q.2)

end JnEcMaster

namespace JnEcMaster

/-- C2 counterexample: the public state enumeration does not assign the
AL-control bit patterns; already INIT is 0, not 1 (and PRE_OP is 1, SAFE_OP
is 2, OP is 3). -/
theorem slaveState_not_al_bit_patterns :
    ¬ (SlaveState.toNat .INIT = 1 ∧ SlaveState.toNat .PRE_OP = 2 ∧
       SlaveState.toNat .SAFE_OP = 4 ∧ SlaveState.toNat .OP = 8) := by
  decide

/-- C2 (amended): the public state enumeration used by requestState/getState
assigns the sequential values INIT = 0, PRE_OP = 1, SAFE_OP = 2, OP = 3, not
the AL-control bit patterns. -/
theorem slaveState_values :
    SlaveState.toNat .INIT = 0 ∧ SlaveState.toNat .PRE_OP = 1 ∧
    SlaveState.toNat .SAFE_OP = 2 ∧ SlaveState.toNat .OP = 3 := by
  decide

/-- C1 counterexample: starting from a zero counter, a run of six consecutive
driver results of -2 does not raise on the sixth call only: the fifth call is
already the fatal CommsLost escalation (so the claimed schedule, under which
the fifth call still returns -2, is false). -/
theorem rideThrough_escalates_on_fifth :
    ((rideThroughRun 0 [-2, -2, -2, -2, -2, -2]).2.get? 4 =
      some CycleOutcome.fatalCommsLost) ∧
    ((rideThroughRun 0 [-2, -2, -2, -2, -2, -2]).2.get? 4 ≠
      some (CycleOutcome.ret (-2))) := by
  decide

/-- C1 (amended): starting from a zero missedCycles counter, with the driver
returning -2 four times and then 1, each of the four runCycle calls returns
-2 without raising, the fifth returns 1 and resets the counter to 0; in a
subsequent run of five consecutive -2 results the fatal CommsLost escalation
fires on the fifth call only (the call at which the counter reaches 5); and in
general a -2 (resp. -4) escalates to CommsLost (resp. PdoIntegrity) exactly
when the counter before the call is at least 4. -/
theorem rideThrough_policy :
    (rideThroughRun 0 [-2, -2, -2, -2, 1] =
      (0, [.ret (-2), .ret (-2), .ret (-2), .ret (-2), .ret 1])) ∧
    ((rideThroughRun 0 [-2, -2, -2, -2, -2]).2 =
      [.ret (-2), .ret (-2), .ret (-2), .ret (-2), .fatalCommsLost]) ∧
    (∀ m : Nat, (rideThroughStep m (-2)).2 = .fatalCommsLost ↔ 4 ≤ m) ∧
    (∀ m : Nat, (rideThroughStep m (-4)).2 = .fatalPdoIntegrity ↔ 4 ≤ m) := by
  refine ⟨by decide, by decide, ?_, ?_⟩
  · intro m
    simp only [rideThroughStep, MAX_MISSED_CYCLES]
    norm_num
    split <;> simp_all
  · intro m
    simp only [rideThroughStep, MAX_MISSED_CYCLES]
    norm_num
    split <;> simp_all

/-- Witness for the ride-through policy theorem at the concrete counter value
4: a -2 with four misses already on the counter is the fatal escalation. -/
theorem rideThrough_policy_witness :
    (rideThroughStep 4 (-2)).2 = CycleOutcome.fatalCommsLost :=
  (rideThrough_policy.2.2.1 4).mpr (by decide)

end JnEcMaster

namespace JnEcMaster

/-- Runtime value carried by a PDI mapping.  Integer types carry their
mathematical value; BOOL carries a boolean; the two IEEE-754 float widths are
represented by their raw little-endian bit patterns (the DataView float
accessors store and load exactly these bytes, and the JavaScript-number
round-trip is exact for every value representable at the written width). -/
inductive EcValue
  | int (i : Int)
  | bool (b : Bool)
  | f32 (bits : Nat)
  | f64 (bits : Nat)
deriving DecidableEq

/-- Numeric payload of a value, as JavaScript Number() coercion produces for
the integer paths of writeValueToBuffer (booleans coerce to 0/1). -/
def EcValue.toInt : EcValue → Int
  | .int i => i
  | .bool b => if b then 1 else 0
  | .f32 _ => 0
  | .f64 _ => 0

/-- Raw binary32 payload of a value (0 for non-float values). -/
def EcValue.f32bits : EcValue → Nat
  | .f32 b => b % 2 ^ 32
  | _ => 0

/-- Raw binary64 payload of a value (0 for non-float values). -/
def EcValue.f64bits : EcValue → Nat
  | .f64 b => b % 2 ^ 64
  | _ => 0

/-- Truthiness test of the BOOL write path: value === true || value === 1. -/
def EcValue.jsTruthy : EcValue → Bool
  | .bool b => b
  | .int i => i == 1
  | _ => false

/-- Read byte i of the PDI buffer; out-of-range indexing yields 0, mirroring
the source's buffer[pdiByteOffset] ?? 0. -/
def getByte (buf : List Nat) (i : Nat) : Nat :=
  (buf.get? i).getD 0

/-- Store a byte into the PDI buffer.  A Uint8Array store truncates the value
modulo 256 and is a no-op out of range, exactly as List.set is. -/
def setByte (buf : List Nat) (i v : Nat) : List Nat :=
  buf.set i (v % 256)

/-- Little-endian read of n bytes starting at off (DataView get*(off, true)). -/
def leRead (buf : List Nat) (off : Nat) : Nat → Nat
  | 0 => 0
  | n + 1 => getByte buf off + 256 * leRead buf (off + 1) n

/-- Little-endian write of the low 8n bits of v at off (DataView set*). -/
def leWrite (buf : List Nat) (off : Nat) : Nat → Nat → List Nat
  | 0, _ => buf
  | n + 1, v => leWrite (setByte buf off v) (off + 1) n (v / 256)

/-- Two's-complement encoding at width w, as the ToIntN/ToUintN coercions of
the DataView integer setters produce: the value modulo 2^w. -/
def toUnsigned (w : Nat) (i : Int) : Nat :=
  (i % (2 ^ w)).toNat

/-- Two's-complement decoding at width w, as the signed DataView getters
produce. -/
def toSigned (w : Nat) (u : Nat) : Int :=
  if u < 2 ^ (w - 1) then (u : Int) else (u : Int) - 2 ^ w

/-- One entry of the variable-mapping table: the ProcessDataMapping record of
eni-config.ts extended with the cached current/new values of ec_types.ts's
PdoMapping. -/
structure PdoMapping where
  variableName : String
  pdiByteOffset : Nat
  bitOffset : Option Nat
  dataType : String
  slaveIndex : Nat
  isInput : Bool
  bitSize : Nat
  currentValue : Option EcValue := none
  newValue : Option EcValue := none
deriving DecidableEq

/-- EcMaster.readValueFromBuffer: deserialize a mapping's value from the PDI
buffer.  BOOL with a defined bitOffset extracts the addressed bit; every
other case is the little-endian switch of the source, with unknown types
falling back to an unsigned byte read. -/
def readValueFromBuffer (buf : List Nat) (m : PdoMapping) : EcValue :=
  match m.dataType, m.bitOffset with
  | "BOOL", some bit => .bool ((getByte buf m.pdiByteOffset >>> bit) &&& 1 == 1)
  | dt, _ =>
    match dt with
    | "SINT8" => .int (toSigned 8 (getByte buf m.pdiByteOffset))
    | "UINT8" => .int (getByte buf m.pdiByteOffset)
    | "INT16" => .int (toSigned 16 (leRead buf m.pdiByteOffset 2))
    | "UINT16" => .int (leRead buf m.pdiByteOffset 2)
    | "INT32" => .int (toSigned 32 (leRead buf m.pdiByteOffset 4))
    | "UINT32" => .int (leRead buf m.pdiByteOffset 4)
    | "REAL32" => .f32 (leRead buf m.pdiByteOffset 4)
    | "REAL64" => .f64 (leRead buf m.pdiByteOffset 8)
    | "LREAL" => .f64 (leRead buf m.pdiByteOffset 8)
    | "INT64" => .int (toSigned 64 (leRead buf m.pdiByteOffset 8))
    | _ => .int (getByte buf m.pdiByteOffset)

/-- EcMaster.writeValueToBuffer: serialize a value into the PDI buffer.  BOOL
with a defined bitOffset performs the read-modify-write with the single-bit
mask of the source (the JavaScript ~mask is a 32-bit complement); every other
case is the little-endian switch, with unknown types falling back to a
masked byte store. -/
def writeValueToBuffer (buf : List Nat) (m : PdoMapping) (v : EcValue) :
    List Nat :=
  match m.dataType, m.bitOffset with
  | "BOOL", some bit =>
    let currentByte := getByte buf m.pdiByteOffset
    let mask := 1 <<< bit
    let newByte :=
      if v.jsTruthy then currentByte ||| mask
      else currentByte &&& (0xFFFFFFFF ^^^ mask)
    setByte buf m.pdiByteOffset newByte
  | dt, _ =>
    match dt with
    | "SINT8" => setByte buf m.pdiByteOffset (toUnsigned 8 v.toInt)
    | "UINT8" => setByte buf m.pdiByteOffset (toUnsigned 8 v.toInt)
    | "INT16" => leWrite buf m.pdiByteOffset 2 (toUnsigned 16 v.toInt)
    | "UINT16" => leWrite buf m.pdiByteOffset 2 (toUnsigned 16 v.toInt)
    | "INT32" => leWrite buf m.pdiByteOffset 4 (toUnsigned 32 v.toInt)
    | "UINT32" => leWrite buf m.pdiByteOffset 4 (toUnsigned 32 v.toInt)
    | "REAL32" => leWrite buf m.pdiByteOffset 4 v.f32bits
    | "REAL64" => leWrite buf m.pdiByteOffset 8 v.f64bits
    | "LREAL" => leWrite buf m.pdiByteOffset 8 v.f64bits
    | "INT64" => leWrite buf m.pdiByteOffset 8 (toUnsigned 64 v.toInt)
    | _ => setByte buf m.pdiByteOffset (toUnsigned 8 v.toInt)

/-- Number of PDI bytes a data type occupies (1 for the byte fallback). -/
def typeByteSize : String → Nat
  | "INT16" => 2
  | "UINT16" => 2
  | "INT32" => 4
  | "UINT32" => 4
  | "REAL32" => 4
  | "REAL64" => 8
  | "LREAL" => 8
  | "INT64" => 8
  | _ => 1

/-- The representable range of each supported scalar type, as a predicate on
the value written.  Integer widths carry their two's-complement range; INT64
is restricted to the integers the JavaScript-number API transports exactly;
floats carry any bit pattern of their width. -/
def valueInRange (dt : String) (v : EcValue) : Prop :=
  match dt, v with
  | "BOOL", .bool _ => True
  | "SINT8", .int i => -128 ≤ i ∧ i < 128
  | "UINT8", .int i => 0 ≤ i ∧ i < 256
  | "INT16", .int i => -(2 ^ 15) ≤ i ∧ i < 2 ^ 15
  | "UINT16", .int i => 0 ≤ i ∧ i < 2 ^ 16
  | "INT32", .int i => -(2 ^ 31) ≤ i ∧ i < 2 ^ 31
  | "UINT32", .int i => 0 ≤ i ∧ i < 2 ^ 32
  | "REAL32", .f32 b => b < 2 ^ 32
  | "REAL64", .f64 b => b < 2 ^ 64
  | "LREAL", .f64 b => b < 2 ^ 64
  | "INT64", .int i => -(2 ^ 53) ≤ i ∧ i ≤ 2 ^ 53
  | _, _ => False

/-- The scalar data types the PDI codec supports. -/
def supportedTypes : List String :=
  ["BOOL", "SINT8", "UINT8", "INT16", "UINT16", "INT32", "UINT32",
   "REAL32", "REAL64", "LREAL", "INT64"]

theorem length_setByte (buf : List Nat) (i v : Nat) :
    (setByte buf i v).length = buf.length :=
  List.length_set buf i (v % 256)

theorem getByte_setByte_self (buf : List Nat) (i v : Nat)
    (h : i < buf.length) : getByte (setByte buf i v) i = v % 256 := by
  simp [getByte, setByte, List.get?_eq_getElem?, List.getElem?_set, h]

theorem getByte_setByte_ne (buf : List Nat) (i j v : Nat) (h : i ≠ j) :
    getByte (setByte buf i v) j = getByte buf j := by
  simp [getByte, setByte, List.get?_eq_getElem?, List.getElem?_set, h]

theorem length_leWrite (n : Nat) :
    ∀ (buf : List Nat) (off v : Nat), (leWrite buf off n v).length = buf.length := by
  induction n with
  | zero => intro buf off v; rfl
  | succ k ih =>
    intro buf off v
    simp only [leWrite, ih, length_setByte]

theorem getByte_leWrite_lt (n : Nat) :
    ∀ (buf : List Nat) (off v j : Nat), j < off →
      getByte (leWrite buf off n v) j = getByte buf j := by
  induction n with
  | zero => intro buf off v j _; rfl
  | succ k ih =>
    intro buf off v j hj
    simp only [leWrite]
    rw [ih _ _ _ _ (by omega), getByte_setByte_ne _ _ _ _ (by omega)]

theorem leRead_leWrite (n : Nat) :
    ∀ (buf : List Nat) (off v : Nat), off + n ≤ buf.length →
      leRead (leWrite buf off n v) off n = v % 2 ^ (8 * n) := by
  induction n with
  | zero => intro buf off v _; simp [leRead, leWrite, Nat.mod_one]
  | succ k ih =>
    intro buf off v h
    simp only [leWrite, leRead]
    rw [getByte_leWrite_lt _ _ _ _ _ (by omega),
      getByte_setByte_self _ _ _ (by omega),
      ih _ _ _ (by simp only [length_setByte]; omega)]
    have hpow : 2 ^ (8 * (k + 1)) = 256 * 2 ^ (8 * k) := by
      rw [show 8 * (k + 1) = 8 + 8 * k by ring, pow_add]
      norm_num
    rw [hpow, Nat.mod_mul]

theorem leRead_lt (n : Nat) :
    ∀ (buf : List Nat) (off : Nat), (∀ b ∈ buf, b < 256) →
      leRead buf off n < 2 ^ (8 * n) := by
  induction n with
  | zero => intro buf off _; simp [leRead]
  | succ k ih =>
    intro buf off hb
    have h1 : getByte buf off < 256 := by
      unfold getByte
      cases hg : buf.get? off with
      | none => simp
      | some b =>
        have := hb b (List.get?_mem hg)
        simpa [hg] using this
    have h2 := ih buf (off + 1) hb
    have hpow : 2 ^ (8 * (k + 1)) = 256 * 2 ^ (8 * k) := by
      rw [show 8 * (k + 1) = 8 + 8 * k by ring, pow_add]
      norm_num
    simp only [leRead]
    omega

theorem toUnsigned_lt (w : Nat) (i : Int) : toUnsigned w i < 2 ^ w := by
  unfold toUnsigned
  have h0 : (0:Int) < 2 ^ w := by positivity
  have h1 := Int.emod_lt_of_pos i h0
  have h2 := Int.emod_nonneg i (ne_of_gt h0)
  have h3 : ((2 ^ w : Nat) : Int) = 2 ^ w := by push_cast; ring
  omega

theorem bitRead_eq_testBit (x k : Nat) :
    ((x >>> k) &&& 1 == 1) = x.testBit k := by
  rw [Nat.testBit_to_div_mod, Nat.and_one_is_mod, Nat.shiftRight_eq_div_pow]
  by_cases h : x / 2 ^ k % 2 = 1 <;> simp [h]

theorem toSigned_toUnsigned_8 (i : Int) (h1 : -128 ≤ i) (h2 : i < 128) :
    toSigned 8 (toUnsigned 8 i) = i := by
  simp only [toSigned, toUnsigned]
  norm_num
  split <;> omega

theorem toSigned_toUnsigned_16 (i : Int) (h1 : -(2 ^ 15) ≤ i) (h2 : i < 2 ^ 15) :
    toSigned 16 (toUnsigned 16 i) = i := by
  simp only [toSigned, toUnsigned]
  norm_num at h1 h2 ⊢
  split <;> omega

theorem toSigned_toUnsigned_32 (i : Int) (h1 : -(2 ^ 31) ≤ i) (h2 : i < 2 ^ 31) :
    toSigned 32 (toUnsigned 32 i) = i := by
  simp only [toSigned, toUnsigned]
  norm_num at h1 h2 ⊢
  split <;> omega

theorem toSigned_toUnsigned_64 (i : Int) (h1 : -(2 ^ 63) ≤ i) (h2 : i < 2 ^ 63) :
    toSigned 64 (toUnsigned 64 i) = i := by
  simp only [toSigned, toUnsigned]
  norm_num at h1 h2 ⊢
  split <;> omega

theorem toUnsigned_coe (w : Nat) (i : Int) (h1 : 0 ≤ i)
    (h2 : i < (2 : Int) ^ w) : ((toUnsigned w i : Nat) : Int) = i := by
  unfold toUnsigned
  rw [Int.emod_eq_of_lt h1 h2, Int.toNat_of_nonneg h1]

theorem roundtrip_sint8 (buf : List Nat) (name : String) (off : Nat)
    (bitO : Option Nat) (si : Nat) (inp : Bool) (bs : Nat)
    (cv nv : Option EcValue) (i : Int)
    (h1 : -128 ≤ i) (h2 : i < 128) (hin : off + 1 ≤ buf.length) :
    readValueFromBuffer
      (writeValueToBuffer buf ⟨name, off, bitO, "SINT8", si, inp, bs, cv, nv⟩
        (.int i))
      ⟨name, off, bitO, "SINT8", si, inp, bs, cv, nv⟩ = .int i := by
  cases bitO
  all_goals
    show EcValue.int (toSigned 8 (getByte (setByte buf off (toUnsigned 8 i)) off))
      = EcValue.int i
    rw [getByte_setByte_self _ _ _ (by omega)]
    congr 1
    simp only [toSigned, toUnsigned]
    norm_num
    split <;> omega

theorem roundtrip_uint8 (buf : List Nat) (name : String) (off : Nat)
    (bitO : Option Nat) (si : Nat) (inp : Bool) (bs : Nat)
    (cv nv : Option EcValue) (i : Int)
    (h1 : 0 ≤ i) (h2 : i < 256) (hin : off + 1 ≤ buf.length) :
    readValueFromBuffer
      (writeValueToBuffer buf ⟨name, off, bitO, "UINT8", si, inp, bs, cv, nv⟩
        (.int i))
      ⟨name, off, bitO, "UINT8", si, inp, bs, cv, nv⟩ = .int i := by
  cases bitO
  all_goals
    show EcValue.int (getByte (setByte buf off (toUnsigned 8 i)) off)
      = EcValue.int i
    rw [getByte_setByte_self _ _ _ (by omega)]
    congr 1
    simp only [toUnsigned]
    norm_num
    omega

theorem roundtrip_int16 (buf : List Nat) (name : String) (off : Nat)
    (bitO : Option Nat) (si : Nat) (inp : Bool) (bs : Nat)
    (cv nv : Option EcValue) (i : Int)
    (h1 : -(2 ^ 15) ≤ i) (h2 : i < 2 ^ 15) (hin : off + 2 ≤ buf.length) :
    readValueFromBuffer
      (writeValueToBuffer buf ⟨name, off, bitO, "INT16", si, inp, bs, cv, nv⟩
        (.int i))
      ⟨name, off, bitO, "INT16", si, inp, bs, cv, nv⟩ = .int i := by
  cases bitO
  all_goals
    show EcValue.int (toSigned 16 (leRead (leWrite buf off 2 (toUnsigned 16 i)) off 2))
      = EcValue.int i
    rw [leRead_leWrite 2 _ _ _ (by omega)]
    congr 1
    simp only [toSigned, toUnsigned]
    norm_num at h1 h2 ⊢
    split <;> omega

theorem roundtrip_uint16 (buf : List Nat) (name : String) (off : Nat)
    (bitO : Option Nat) (si : Nat) (inp : Bool) (bs : Nat)
    (cv nv : Option EcValue) (i : Int)
    (h1 : 0 ≤ i) (h2 : i < 2 ^ 16) (hin : off + 2 ≤ buf.length) :
    readValueFromBuffer
      (writeValueToBuffer buf ⟨name, off, bitO, "UINT16", si, inp, bs, cv, nv⟩
        (.int i))
      ⟨name, off, bitO, "UINT16", si, inp, bs, cv, nv⟩ = .int i := by
  cases bitO
  all_goals
    show EcValue.int (leRead (leWrite buf off 2 (toUnsigned 16 i)) off 2)
      = EcValue.int i
    rw [leRead_leWrite 2 _ _ _ (by omega)]
    congr 1
    simp only [toUnsigned]
    norm_num at h2 ⊢
    omega

theorem roundtrip_int32 (buf : List Nat) (name : String) (off : Nat)
    (bitO : Option Nat) (si : Nat) (inp : Bool) (bs : Nat)
    (cv nv : Option EcValue) (i : Int)
    (h1 : -(2 ^ 31) ≤ i) (h2 : i < 2 ^ 31) (hin : off + 4 ≤ buf.length) :
    readValueFromBuffer
      (writeValueToBuffer buf ⟨name, off, bitO, "INT32", si, inp, bs, cv, nv⟩
        (.int i))
      ⟨name, off, bitO, "INT32", si, inp, bs, cv, nv⟩ = .int i := by
  cases bitO
  all_goals
    show EcValue.int (toSigned 32 (leRead (leWrite buf off 4 (toUnsigned 32 i)) off 4))
      = EcValue.int i
    rw [leRead_leWrite 4 _ _ _ (by omega)]
    congr 1
    simp only [toSigned, toUnsigned]
    norm_num at h1 h2 ⊢
    split <;> omega

theorem roundtrip_uint32 (buf : List Nat) (name : String) (off : Nat)
    (bitO : Option Nat) (si : Nat) (inp : Bool) (bs : Nat)
    (cv nv : Option EcValue) (i : Int)
    (h1 : 0 ≤ i) (h2 : i < 2 ^ 32) (hin : off + 4 ≤ buf.length) :
    readValueFromBuffer
      (writeValueToBuffer buf ⟨name, off, bitO, "UINT32", si, inp, bs, cv, nv⟩
        (.int i))
      ⟨name, off, bitO, "UINT32", si, inp, bs, cv, nv⟩ = .int i := by
  cases bitO
  all_goals
    show EcValue.int (leRead (leWrite buf off 4 (toUnsigned 32 i)) off 4)
      = EcValue.int i
    rw [leRead_leWrite 4 _ _ _ (by omega)]
    congr 1
    simp only [toUnsigned]
    norm_num at h2 ⊢
    omega

theorem roundtrip_int64 (buf : List Nat) (name : String) (off : Nat)
    (bitO : Option Nat) (si : Nat) (inp : Bool) (bs : Nat)
    (cv nv : Option EcValue) (i : Int)
    (h1 : -(2 ^ 53) ≤ i) (h2 : i ≤ 2 ^ 53) (hin : off + 8 ≤ buf.length) :
    readValueFromBuffer
      (writeValueToBuffer buf ⟨name, off, bitO, "INT64", si, inp, bs, cv, nv⟩
        (.int i))
      ⟨name, off, bitO, "INT64", si, inp, bs, cv, nv⟩ = .int i := by
  cases bitO
  all_goals
    show EcValue.int (toSigned 64 (leRead (leWrite buf off 8 (toUnsigned 64 i)) off 8))
      = EcValue.int i
    rw [leRead_leWrite 8 _ _ _ (by omega)]
    congr 1
    simp only [toSigned, toUnsigned]
    norm_num at h1 h2 ⊢
    split <;> omega

theorem roundtrip_real32 (buf : List Nat) (name : String) (off : Nat)
    (bitO : Option Nat) (si : Nat) (inp : Bool) (bs : Nat)
    (cv nv : Option EcValue) (x : Nat)
    (h2 : x < 2 ^ 32) (hin : off + 4 ≤ buf.length) :
    readValueFromBuffer
      (writeValueToBuffer buf ⟨name, off, bitO, "REAL32", si, inp, bs, cv, nv⟩
        (.f32 x))
      ⟨name, off, bitO, "REAL32", si, inp, bs, cv, nv⟩ = .f32 x := by
  cases bitO
  all_goals
    show EcValue.f32 (leRead (leWrite buf off 4 (x % 2 ^ 32)) off 4)
      = EcValue.f32 x
    rw [leRead_leWrite 4 _ _ _ (by omega)]
    congr 1
    norm_num at h2 ⊢
    omega

theorem roundtrip_real64 (buf : List Nat) (name : String) (off : Nat)
    (bitO : Option Nat) (si : Nat) (inp : Bool) (bs : Nat)
    (cv nv : Option EcValue) (x : Nat)
    (h2 : x < 2 ^ 64) (hin : off + 8 ≤ buf.length) :
    readValueFromBuffer
      (writeValueToBuffer buf ⟨name, off, bitO, "REAL64", si, inp, bs, cv, nv⟩
        (.f64 x))
      ⟨name, off, bitO, "REAL64", si, inp, bs, cv, nv⟩ = .f64 x := by
  cases bitO
  all_goals
    show EcValue.f64 (leRead (leWrite buf off 8 (x % 2 ^ 64)) off 8)
      = EcValue.f64 x
    rw [leRead_leWrite 8 _ _ _ (by omega)]
    congr 1
    norm_num at h2 ⊢
    omega

theorem roundtrip_lreal (buf : List Nat) (name : String) (off : Nat)
    (bitO : Option Nat) (si : Nat) (inp : Bool) (bs : Nat)
    (cv nv : Option EcValue) (x : Nat)
    (h2 : x < 2 ^ 64) (hin : off + 8 ≤ buf.length) :
    readValueFromBuffer
      (writeValueToBuffer buf ⟨name, off, bitO, "LREAL", si, inp, bs, cv, nv⟩
        (.f64 x))
      ⟨name, off, bitO, "LREAL", si, inp, bs, cv, nv⟩ = .f64 x := by
  cases bitO
  all_goals
    show EcValue.f64 (leRead (leWrite buf off 8 (x % 2 ^ 64)) off 8)
      = EcValue.f64 x
    rw [leRead_leWrite 8 _ _ _ (by omega)]
    congr 1
    norm_num at h2 ⊢
    omega

theorem roundtrip_bool (buf : List Nat) (name : String) (off k : Nat)
    (si : Nat) (inp : Bool) (bs : Nat) (cv nv : Option EcValue) (b : Bool)
    (hk : k < 8) (hin : off + 1 ≤ buf.length) :
    readValueFromBuffer
      (writeValueToBuffer buf ⟨name, off, some k, "BOOL", si, inp, bs, cv, nv⟩
        (.bool b))
      ⟨name, off, some k, "BOOL", si, inp, bs, cv, nv⟩ = .bool b := by
  show EcValue.bool
      ((getByte (setByte buf off
          (if b then getByte buf off ||| (1 <<< k)
           else getByte buf off &&& (0xFFFFFFFF ^^^ (1 <<< k)))) off >>> k)
        &&& 1 == 1)
    = EcValue.bool b
  rw [getByte_setByte_self _ _ _ (by omega), bitRead_eq_testBit,
    show (256 : Nat) = 2 ^ 8 by norm_num, Nat.testBit_mod_two_pow]
  congr 1
  cases b
  · simp only [Bool.false_eq_true, if_false, Nat.shiftLeft_eq, one_mul,
      Nat.testBit_land, Nat.testBit_xor,
      show (0xFFFFFFFF : Nat) = 2 ^ 32 - 1 by norm_num,
      Nat.testBit_two_pow_sub_one, Nat.testBit_two_pow_self]
    simp [hk, show k < 32 by omega]
  · simp only [if_true, Nat.shiftLeft_eq, one_mul, Nat.testBit_lor,
      Nat.testBit_two_pow_self]
    simp [hk]

theorem bool_write_preserves (buf : List Nat) (name : String) (off k : Nat)
    (si : Nat) (inp : Bool) (bs : Nat) (cv nv : Option EcValue) (b : Bool)
    (j : Nat) (hin : off + 1 ≤ buf.length) (hj : j < 8) (hjk : j ≠ k) :
    (getByte
        (writeValueToBuffer buf ⟨name, off, some k, "BOOL", si, inp, bs, cv, nv⟩
          (.bool b)) off).testBit j
      = (getByte buf off).testBit j := by
  show (getByte (setByte buf off
      (if b then getByte buf off ||| (1 <<< k)
       else getByte buf off &&& (0xFFFFFFFF ^^^ (1 <<< k)))) off).testBit j
    = (getByte buf off).testBit j
  rw [getByte_setByte_self _ _ _ (by omega),
    show (256 : Nat) = 2 ^ 8 by norm_num, Nat.testBit_mod_two_pow]
  cases b
  · simp only [Bool.false_eq_true, if_false, Nat.shiftLeft_eq, one_mul,
      Nat.testBit_land, Nat.testBit_xor,
      show (0xFFFFFFFF : Nat) = 2 ^ 32 - 1 by norm_num,
      Nat.testBit_two_pow_sub_one, Nat.testBit_two_pow]
    simp [hj, show j < 32 by omega, show ¬ k = j from fun h => hjk h.symm]
  · simp only [if_true, Nat.shiftLeft_eq, one_mul, Nat.testBit_lor,
      Nat.testBit_two_pow]
    simp [hj, show ¬ k = j from fun h => hjk h.symm]

/-- C6: round-trip of PDI serialization.  For every supported scalar data
type and every value in the type's representable range (the two's-complement
range for the 8/16/32-bit integers, the exactly-transported integers for the
64-bit signed type, any bit pattern for the two float widths, both booleans
for BOOL), writing the value with writeValueToBuffer and reading the same
buffer location back with readValueFromBuffer yields exactly the value; and
for BOOL mappings the write changes only the single addressed bit of the
target byte, leaving the other seven bits unchanged. -/
theorem pdi_write_read_roundtrip (buf : List Nat) (m : PdoMapping) (v : EcValue)
    (hdt : m.dataType ∈ supportedTypes)
    (hv : valueInRange m.dataType v)
    (hbool : m.dataType = "BOOL" → ∃ k, m.bitOffset = some k ∧ k < 8)
    (hin : m.pdiByteOffset + typeByteSize m.dataType ≤ buf.length) :
    readValueFromBuffer (writeValueToBuffer buf m v) m = v ∧
    (∀ k, m.dataType = "BOOL" → m.bitOffset = some k →
      ∀ j, j < 8 → j ≠ k →
        (getByte (writeValueToBuffer buf m v) m.pdiByteOffset).testBit j
          = (getByte buf m.pdiByteOffset).testBit j) := by
  obtain ⟨name, off, bitO, dt, si, inp, bs, cv, nv⟩ := m
  simp only [supportedTypes, List.mem_cons, List.not_mem_nil, or_false] at hdt
  rcases hdt with rfl | rfl | rfl | rfl | rfl | rfl | rfl | rfl | rfl | rfl | rfl
  · -- BOOL
    obtain ⟨k, hk, hk8⟩ := hbool rfl
    simp only at hk
    subst hk
    cases v with
    | bool b =>
      refine ⟨roundtrip_bool buf name off k si inp bs cv nv b hk8 hin, ?_⟩
      intro k2 _ hk2 j hj hjk
      have hkk : k2 = k := by
        simpa using hk2.symm
      subst hkk
      exact bool_write_preserves buf name off k2 si inp bs cv nv b j hin hj hjk
    | int i => exact hv.elim
    | f32 x => exact hv.elim
    | f64 x => exact hv.elim
  · -- SINT8
    cases v with
    | int i =>
      exact ⟨roundtrip_sint8 buf name off bitO si inp bs cv nv i hv.1 hv.2 hin,
        fun k h => by simp at h⟩
    | bool b => exact hv.elim
    | f32 x => exact hv.elim
    | f64 x => exact hv.elim
  · -- UINT8
    cases v with
    | int i =>
      exact ⟨roundtrip_uint8 buf name off bitO si inp bs cv nv i hv.1 hv.2 hin,
        fun k h => by simp at h⟩
    | bool b => exact hv.elim
    | f32 x => exact hv.elim
    | f64 x => exact hv.elim
  · -- INT16
    cases v with
    | int i =>
      exact ⟨roundtrip_int16 buf name off bitO si inp bs cv nv i hv.1 hv.2 hin,
        fun k h => by simp at h⟩
    | bool b => exact hv.elim
    | f32 x => exact hv.elim
    | f64 x => exact hv.elim
  · -- UINT16
    cases v with
    | int i =>
      exact ⟨roundtrip_uint16 buf name off bitO si inp bs cv nv i hv.1 hv.2 hin,
        fun k h => by simp at h⟩
    | bool b => exact hv.elim
    | f32 x => exact hv.elim
    | f64 x => exact hv.elim
  · -- INT32
    cases v with
    | int i =>
      exact ⟨roundtrip_int32 buf name off bitO si inp bs cv nv i hv.1 hv.2 hin,
        fun k h => by simp at h⟩
    | bool b => exact hv.elim
    | f32 x => exact hv.elim
    | f64 x => exact hv.elim
  · -- UINT32
    cases v with
    | int i =>
      exact ⟨roundtrip_uint32 buf name off bitO si inp bs cv nv i hv.1 hv.2 hin,
        fun k h => by simp at h⟩
    | bool b => exact hv.elim
    | f32 x => exact hv.elim
    | f64 x => exact hv.elim
  · -- REAL32
    cases v with
    | f32 x =>
      exact ⟨roundtrip_real32 buf name off bitO si inp bs cv nv x hv hin,
        fun k h => by simp at h⟩
    | bool b => exact hv.elim
    | int i => exact hv.elim
    | f64 x => exact hv.elim
  · -- REAL64
    cases v with
    | f64 x =>
      exact ⟨roundtrip_real64 buf name off bitO si inp bs cv nv x hv hin,
        fun k h => by simp at h⟩
    | bool b => exact hv.elim
    | int i => exact hv.elim
    | f32 x => exact hv.elim
  · -- LREAL
    cases v with
    | f64 x =>
      exact ⟨roundtrip_lreal buf name off bitO si inp bs cv nv x hv hin,
        fun k h => by simp at h⟩
    | bool b => exact hv.elim
    | int i => exact hv.elim
    | f32 x => exact hv.elim
  · -- INT64
    cases v with
    | int i =>
      exact ⟨roundtrip_int64 buf name off bitO si inp bs cv nv i hv.1 hv.2 hin,
        fun k h => by simp at h⟩
    | bool b => exact hv.elim
    | f32 x => exact hv.elim
    | f64 x => exact hv.elim

/-- Witness for the round-trip theorem: a UINT16 mapping at offset 1 of a
4-byte buffer round-trips the value 0x1234, and a BOOL mapping at bit 3 of
byte 0 round-trips true while preserving the other bits of the byte. -/
theorem pdi_write_read_roundtrip_witness :
    readValueFromBuffer
      (writeValueToBuffer [0, 0, 0, 0]
        ⟨"v", 1, none, "UINT16", 1, true, 16, none, none⟩ (.int 0x1234))
      ⟨"v", 1, none, "UINT16", 1, true, 16, none, none⟩ = .int 0x1234 := by
  have h := pdi_write_read_roundtrip [0, 0, 0, 0]
    ⟨"v", 1, none, "UINT16", 1, true, 16, none, none⟩ (.int 0x1234)
    (by decide) (by constructor <;> decide) (by intro h; exact absurd h (by decide))
    (by decide)
  exact h.1

/-- State owned by the facade that runCycle touches: the shared PDI buffer,
the cached input/output mapping sequences, and the missed-cycle counter. -/
structure MasterModel where
  pdi : List Nat
  inputMappings : List PdoMapping
  outputMappings : List PdoMapping
  missedCycleCount : Nat

/-- Pre-transmit output walk of runCycle (step 2): for every output mapping
whose pending newValue is defined and differs from its last known value,
serialize it into the buffer and record it as the current value. -/
def writeOutputs : List Nat → List PdoMapping → List Nat × List PdoMapping
  | buf, [] => (buf, [])
  | buf, m :: rest =>
    if m.newValue ≠ none ∧ m.newValue ≠ m.currentValue then
      let buf1 := writeValueToBuffer buf m (m.newValue.getD (.int 0))
      let p := writeOutputs buf1 rest
      (p.1, { m with currentValue := m.newValue } :: p.2)
    else
      let p := writeOutputs buf rest
      (p.1, m :: p.2)

/-- EcMaster.runCycle as a state transformer.  The wire driver is a
parameter: it yields the signed working counter and the contents the shared
PDI buffer holds after the FFI exchange.  Outputs are always serialized
first; the error block is rideThroughStep; only on a non-negative result are
the input mappings re-deserialized from the buffer. -/
def runCycleModel (st : MasterModel) (driverWkc : Int) (driverPdi : List Nat) :
    MasterModel × CycleOutcome :=
  let p := writeOutputs st.pdi st.outputMappings
  let q := rideThroughStep st.missedCycleCount driverWkc
  let ins :=
    if 0 ≤ driverWkc then
      st.inputMappings.map
        (fun m => { m with currentValue := some (readValueFromBuffer driverPdi m) })
    else st.inputMappings
  ({ pdi := driverPdi, inputMappings := ins, outputMappings := p.2,
     missedCycleCount := q.1 }, q.2)

/-- C3: post-receive contract of runCycle.  Whenever the driver result is
non-negative, the call returns that working counter and every input
mapping's currentValue equals the deserialization of the final PDI buffer at
the mapping's offset and declared type; whenever the driver result is
negative, no input mapping is updated. -/
theorem runCycle_post_receive (st : MasterModel) (wkc : Int)
    (dpdi : List Nat) :
    (0 ≤ wkc →
      (runCycleModel st wkc dpdi).2 = .ret wkc ∧
      ∀ m ∈ (runCycleModel st wkc dpdi).1.inputMappings,
        m.currentValue =
          some (readValueFromBuffer (runCycleModel st wkc dpdi).1.pdi m)) ∧
    (wkc < 0 →
      (runCycleModel st wkc dpdi).1.inputMappings = st.inputMappings) := by
  constructor
  · intro h
    constructor
    · simp only [runCycleModel, rideThroughStep, if_neg (not_lt.mpr h)]
    · intro m hm
      simp only [runCycleModel, if_pos h, List.mem_map] at hm
      obtain ⟨m0, _, rfl⟩ := hm
      rfl
  · intro h
    simp only [runCycleModel, if_neg (not_le.mpr h)]

/-- Witness for the post-receive contract: a master with one UINT8 input
mapping at offset 1, a driver result of 3 and a driver buffer [7, 42]. -/
theorem runCycle_post_receive_witness :
    (runCycleModel ⟨[0, 0], [⟨"in", 1, none, "UINT8", 1, true, 8, none, none⟩],
        [], 0⟩ 3 [7, 42]).2 = .ret 3 ∧
    ∀ m ∈ (runCycleModel ⟨[0, 0],
        [⟨"in", 1, none, "UINT8", 1, true, 8, none, none⟩], [], 0⟩
        3 [7, 42]).1.inputMappings,
      m.currentValue =
        some (readValueFromBuffer (runCycleModel ⟨[0, 0],
          [⟨"in", 1, none, "UINT8", 1, true, 8, none, none⟩], [], 0⟩
          3 [7, 42]).1.pdi m) :=
  (runCycle_post_receive _ 3 [7, 42]).1 (by decide)

end JnEcMaster

namespace JnEcMaster

/-- Master block of the Network Description (eni-config.ts), restricted to
the field the verified operations consult. -/
structure MasterConfig where
  watchdogTimeoutMs : Option Nat := none
deriving DecidableEq

/-- Per-slave process-data ranges from the ENI (eni-config.ts processData):
explicit byte offsets and bit lengths for each half, all optional. -/
structure SlaveProcessData where
  inputOffset : Option Nat := none
  inputBitLength : Option Nat := none
  outputOffset : Option Nat := none
  outputBitLength : Option Nat := none
deriving DecidableEq

/-- Slave entry of the Network Description (eni-config.ts EniSlaveConfig),
restricted to the fields the verified operations consult. -/
structure EniSlaveConfig where
  name : String
  processData : Option SlaveProcessData := none
  mailboxStatusAddr : Option Nat := none
  pollTime : Option Nat := none
  supportsCoE : Option Bool := none
deriving DecidableEq

/-- Named variable of the global process image (eni-config.ts
ProcessVariable); bitOffset is relative to its half. -/
structure ProcessVariable where
  name : String
  dataType : String
  bitSize : Nat
  bitOffset : Nat
deriving DecidableEq

/-- One half (inputs or outputs) of the process image; vars embeds the
source's variables field (a reserved word in Lean). -/
structure ProcessImageHalf where
  byteSize : Nat
  vars : List ProcessVariable
deriving DecidableEq

/-- Global process image of the Network Description. -/
structure ProcessImage where
  inputs : ProcessImageHalf
  outputs : ProcessImageHalf
deriving DecidableEq

/-- Network Description root (eni-config.ts EniConfig), restricted to the
fields the verified operations consult. -/
structure EniConfig where
  master : MasterConfig
  slaves : List EniSlaveConfig
  processImage : Option ProcessImage := none
deriving DecidableEq

/-- Loop body of matchVariableToSlave (process-data-mapper.ts): walk the
slave array from position i, skip slaves without process data or with an
undefined offset or bit length in the requested half, and return the first
position whose half-open bit range contains the variable's bit offset;
return -1 when no slave contains it. -/
def matchVariableToSlaveAux (bitOffset : Nat) (isInput : Bool) :
    Nat → List EniSlaveConfig → Int
  | _, [] => -1
  | i, s :: rest =>
    match s.processData with
    | none => matchVariableToSlaveAux bitOffset isInput (i + 1) rest
    | some pd =>
      match (if isInput then pd.inputOffset else pd.outputOffset),
            (if isInput then pd.inputBitLength else pd.outputBitLength) with
      | some bo, some bl =>
        if bo * 8 ≤ bitOffset ∧ bitOffset < bo * 8 + bl then Int.ofNat i
        else matchVariableToSlaveAux bitOffset isInput (i + 1) rest
      | _, _ => matchVariableToSlaveAux bitOffset isInput (i + 1) rest

/-- matchVariableToSlave of process-data-mapper.ts. -/
def matchVariableToSlave (bitOffset : Nat) (isInput : Bool)
    (slaves : List EniSlaveConfig) : Int :=
  matchVariableToSlaveAux bitOffset isInput 0 slaves

/-- JavaScript Map.set on the name-keyed mapping table: overwrite in place
when the key exists, append otherwise. -/
def mapSet (m : List (String × PdoMapping)) (k : String) (v : PdoMapping) :
    List (String × PdoMapping) :=
  if m.any (fun p => p.1 == k) then
    m.map (fun p => if p.1 == k then (k, v) else p)
  else m ++ [(k, v)]

/-- JavaScript Map.get on the name-keyed mapping table. -/
def mapGet (m : List (String × PdoMapping)) (k : String) : Option PdoMapping :=
  (m.find? (fun p => p.1 == k)).map (fun p => p.2)

/-- The ProcessDataMapping record buildProcessDataMappings stores for a
variable it assigns: PDI byte offset is the half-relative byte offset plus
the output size for inputs; bitOffset is kept (modulo 8) only for BOOL; the
stored slaveIndex is the matched zero-based array position plus one. -/
def mappingEntry (outputSize : Nat) (isInput : Bool)
    (slaves : List EniSlaveConfig) (v : ProcessVariable) : PdoMapping where
  variableName := v.name
  pdiByteOffset := (if isInput then outputSize else 0) + v.bitOffset / 8
  bitOffset := if v.dataType = "BOOL" then some (v.bitOffset % 8) else none
  dataType := v.dataType
  slaveIndex := (matchVariableToSlave v.bitOffset isInput slaves).toNat + 1
  isInput := isInput
  bitSize := v.bitSize

/-- Per-variable body of the two forEach loops of buildProcessDataMappings:
a variable matched to a slave is stored under its name; a variable contained
in no slave's range is dropped without error. -/
def addVariableMapping (outputSize : Nat) (isInput : Bool)
    (slaves : List EniSlaveConfig) (acc : List (String × PdoMapping))
    (v : ProcessVariable) : List (String × PdoMapping) :=
  if 0 ≤ matchVariableToSlave v.bitOffset isInput slaves then
    mapSet acc v.name (mappingEntry outputSize isInput slaves v)
  else acc

/-- buildProcessDataMappings of process-data-mapper.ts: outputs first, then
inputs, an empty table when the description has no process image. -/
def buildProcessDataMappings (cfg : EniConfig) :
    List (String × PdoMapping) :=
  match cfg.processImage with
  | none => []
  | some pi =>
    let outputSize := pi.outputs.byteSize
    let afterOutputs :=
      pi.outputs.vars.foldl
        (addVariableMapping outputSize false cfg.slaves) []
    pi.inputs.vars.foldl
      (addVariableMapping outputSize true cfg.slaves) afterOutputs

/-- A slave's process-data range in the requested half contains the given
half-relative bit offset: the slave has process data, the half's byte offset
and bit length are both defined, and the offset lies in the half-open range
[byteOffset*8, byteOffset*8 + bitLength). -/
def slaveRangeContains (bitOffset : Nat) (isInput : Bool)
    (s : EniSlaveConfig) : Prop :=
  ∃ pd bo bl, s.processData = some pd ∧
    (if isInput then pd.inputOffset else pd.outputOffset) = some bo ∧
    (if isInput then pd.inputBitLength else pd.outputBitLength) = some bl ∧
    bo * 8 ≤ bitOffset ∧ bitOffset < bo * 8 + bl

theorem matchAux_spec (bitOffset : Nat) (isInput : Bool) :
    ∀ (slaves : List EniSlaveConfig) (base : Nat),
      (matchVariableToSlaveAux bitOffset isInput base slaves = -1 ∧
        ∀ s ∈ slaves, ¬ slaveRangeContains bitOffset isInput s) ∨
      (∃ i s,
        matchVariableToSlaveAux bitOffset isInput base slaves
          = Int.ofNat (base + i) ∧
        slaves.get? i = some s ∧ slaveRangeContains bitOffset isInput s ∧
        ∀ j t, j < i → slaves.get? j = some t →
          ¬ slaveRangeContains bitOffset isInput t) := by
  intro slaves
  induction slaves with
  | nil => intro base; left; exact ⟨rfl, by simp⟩
  | cons s rest ih =>
    intro base
    by_cases hc : slaveRangeContains bitOffset isInput s
    · right
      refine ⟨0, s, ?_, rfl, hc, fun j t hj _ => absurd hj (Nat.not_lt_zero j)⟩
      obtain ⟨pd, bo, bl, hpd, hbo, hbl, hlo, hhi⟩ := hc
      simp only [matchVariableToSlaveAux, hpd, hbo, hbl]
      rw [if_pos ⟨hlo, hhi⟩]
      norm_num
    · have hstep : matchVariableToSlaveAux bitOffset isInput base (s :: rest)
          = matchVariableToSlaveAux bitOffset isInput (base + 1) rest := by
        simp only [matchVariableToSlaveAux]
        split
        · rfl
        · rename_i pd hpd
          split
          · rename_i bo bl hbo hbl
            rw [if_neg]
            intro hcnt
            exact hc ⟨pd, bo, bl, hpd, hbo, hbl, hcnt.1, hcnt.2⟩
          · rfl
      rw [hstep]
      rcases ih (base + 1) with ⟨heq, hall⟩ | ⟨i, t, heq, hget, hcont, hmin⟩
      · left
        refine ⟨heq, ?_⟩
        intro x hx
        rcases List.mem_cons.mp hx with rfl | hx
        · exact hc
        · exact hall x hx
      · right
        refine ⟨i + 1, t, ?_, ?_, hcont, ?_⟩
        · rw [heq]; congr 1; omega
        · simpa using hget
        · intro j u hj hu
          cases j with
          | zero =>
            have hsu : s = u := by simpa using hu
            exact hsu ▸ hc
          | succ j2 =>
            exact hmin j2 u (by omega) (by simpa using hu)

/-- C5: variable-to-slave matching.  matchVariableToSlave walks the slave
array in order and returns the first zero-based position whose half-open bit
range in the requested half contains the variable's bit offset; slaves
without process data or with an undefined offset or bit length contain
nothing; when no slave contains the offset the result is -1 and the mapping
loop leaves the table unchanged (the variable is dropped without error). -/
theorem variable_to_slave_matching (bitOffset : Nat) (isInput : Bool)
    (slaves : List EniSlaveConfig) :
    (∀ i : Nat, matchVariableToSlave bitOffset isInput slaves = Int.ofNat i →
      (∃ s, slaves.get? i = some s ∧
        slaveRangeContains bitOffset isInput s) ∧
      ∀ j t, j < i → slaves.get? j = some t →
        ¬ slaveRangeContains bitOffset isInput t) ∧
    ((∀ s ∈ slaves, ¬ slaveRangeContains bitOffset isInput s) →
      matchVariableToSlave bitOffset isInput slaves = -1) ∧
    (∀ (outputSize : Nat) (acc : List (String × PdoMapping))
        (v : ProcessVariable),
      matchVariableToSlave v.bitOffset isInput slaves = -1 →
      addVariableMapping outputSize isInput slaves acc v = acc) := by
  refine ⟨?_, ?_, ?_⟩
  · intro i heq
    rcases matchAux_spec bitOffset isInput slaves 0 with ⟨hneg, _⟩ |
        ⟨i2, s, heq2, hget, hcont, hmin⟩
    · rw [matchVariableToSlave] at heq
      rw [heq] at hneg
      exact absurd hneg (by rw [Int.ofNat_eq_natCast]; omega)
    · rw [matchVariableToSlave] at heq
      rw [heq] at heq2
      have hi : i2 = i := by
        rw [Int.ofNat_eq_natCast, Int.ofNat_eq_natCast] at heq2
        omega
      subst hi
      exact ⟨⟨s, hget, hcont⟩, fun j t hj ht => hmin j t hj ht⟩
  · intro hall
    rcases matchAux_spec bitOffset isInput slaves 0 with ⟨hneg, _⟩ |
        ⟨i2, s, _, hget, hcont, _⟩
    · exact hneg
    · exact absurd hcont (hall s (List.get?_mem hget))
  · intro outputSize acc v hneg
    simp only [addVariableMapping, hneg]
    norm_num

/-- Witness for the matching theorem: with a first slave that has no process
data and a second covering input bits [0, 32), input bit offset 5 matches
the second slave (zero-based position 1), skipping the first. -/
theorem variable_to_slave_matching_witness :
    (∃ s, [⟨"a", none, none, none, none⟩,
        ⟨"b", some ⟨some 0, some 32, none, none⟩, none, none, none⟩].get? 1
        = some s ∧ slaveRangeContains 5 true s) ∧
    ∀ j t, j < 1 →
      [(⟨"a", none, none, none, none⟩ : EniSlaveConfig),
        ⟨"b", some ⟨some 0, some 32, none, none⟩, none, none, none⟩].get? j
        = some t → ¬ slaveRangeContains 5 true t :=
  (variable_to_slave_matching 5 true
    [⟨"a", none, none, none, none⟩,
     ⟨"b", some ⟨some 0, some 32, none, none⟩, none, none, none⟩]).1 1 rfl

theorem mapSet_mem (m : List (String × PdoMapping)) (k : String)
    (v : PdoMapping) :
    ∀ kv ∈ mapSet m k v, kv ∈ m ∨ kv = (k, v) := by
  intro kv hkv
  unfold mapSet at hkv
  by_cases h : m.any (fun p => p.1 == k)
  · rw [if_pos h, List.mem_map] at hkv
    obtain ⟨p, hp, hpe⟩ := hkv
    by_cases hk : (p.1 == k) = true
    · right; rw [if_pos hk] at hpe; exact hpe.symm
    · left; rw [if_neg hk] at hpe; exact hpe ▸ hp
  · rw [if_neg h, List.mem_append] at hkv
    rcases hkv with h2 | h2
    · left; exact h2
    · right; simpa using h2

theorem addVariableMapping_mem (outputSize : Nat) (isInput : Bool)
    (slaves : List EniSlaveConfig) (acc : List (String × PdoMapping))
    (v : ProcessVariable) :
    ∀ kv ∈ addVariableMapping outputSize isInput slaves acc v,
      kv ∈ acc ∨
      (0 ≤ matchVariableToSlave v.bitOffset isInput slaves ∧
        kv = (v.name, mappingEntry outputSize isInput slaves v)) := by
  intro kv hkv
  unfold addVariableMapping at hkv
  by_cases h : 0 ≤ matchVariableToSlave v.bitOffset isInput slaves
  · rw [if_pos h] at hkv
    rcases mapSet_mem _ _ _ kv hkv with h2 | h2
    · left; exact h2
    · right; exact ⟨h, h2⟩
  · rw [if_neg h] at hkv
    left; exact hkv

theorem foldl_addVariableMapping_mem (outputSize : Nat) (isInput : Bool)
    (slaves : List EniSlaveConfig) :
    ∀ (vars : List ProcessVariable) (acc : List (String × PdoMapping)) kv,
      kv ∈ vars.foldl (addVariableMapping outputSize isInput slaves) acc →
      kv ∈ acc ∨ ∃ v ∈ vars,
        0 ≤ matchVariableToSlave v.bitOffset isInput slaves ∧
        kv = (v.name, mappingEntry outputSize isInput slaves v) := by
  intro vars
  induction vars with
  | nil => intro acc kv h; left; exact h
  | cons v vs ih =>
    intro acc kv h
    simp only [List.foldl_cons] at h
    rcases ih _ kv h with h2 | ⟨u, hu, hle, he⟩
    · rcases addVariableMapping_mem _ _ _ _ _ kv h2 with h3 | ⟨hle, he⟩
      · left; exact h3
      · right; exact ⟨v, List.mem_cons_self v vs, hle, he⟩
    · right; exact ⟨u, List.mem_cons_of_mem v hu, hle, he⟩

/-- Every entry of the built mapping table comes from a variable of the
corresponding process-image half that matched a slave, and is exactly the
record mappingEntry describes. -/
theorem buildProcessDataMappings_mem (cfg : EniConfig) (pi : ProcessImage)
    (hpi : cfg.processImage = some pi) :
    ∀ kv ∈ buildProcessDataMappings cfg,
      ∃ v isIn,
        ((isIn = true ∧ v ∈ pi.inputs.vars) ∨
         (isIn = false ∧ v ∈ pi.outputs.vars)) ∧
        0 ≤ matchVariableToSlave v.bitOffset isIn cfg.slaves ∧
        kv = (v.name, mappingEntry pi.outputs.byteSize isIn cfg.slaves v) := by
  intro kv hkv
  simp only [buildProcessDataMappings, hpi] at hkv
  rcases foldl_addVariableMapping_mem _ _ _ _ _ kv hkv with h |
      ⟨v, hv, hle, he⟩
  · rcases foldl_addVariableMapping_mem _ _ _ _ _ kv h with h2 |
        ⟨v, hv, hle, he⟩
    · exact absurd h2 (List.not_mem_nil kv)
    · exact ⟨v, false, Or.inr ⟨rfl, hv⟩, hle, he⟩
  · exact ⟨v, true, Or.inl ⟨rfl, hv⟩, hle, he⟩

/-- Network Description of scenario S2: outputs half of 1 byte with variable
Out (BYTE at bit 0), inputs half of 4 bytes with variables In_U16 (UINT16 at
input bit 0) and In_Bool (BOOL at input bit 24), one slave covering output
bits [0, 8) and input bits [0, 32). -/
def s2Config : EniConfig where
  master := {}
  slaves := [{
    name := "S",
    processData := some {
      inputOffset := some 0, inputBitLength := some 32,
      outputOffset := some 0, outputBitLength := some 8 } }]
  processImage := some {
    inputs := {
      byteSize := 4,
      vars := [⟨"In_U16", "UINT16", 16, 0⟩, ⟨"In_Bool", "BOOL", 1, 24⟩] },
    outputs := { byteSize := 1, vars := [⟨"Out", "BYTE", 8, 0⟩] } }

/-- C4: PDI offsets of the mapping engine.  Every variable the engine
assigns to a slave is stored with pdiByteOffset equal to outputSize plus
floor(bitOffset / 8) when it is an input and floor(bitOffset / 8) when it is
an output, and its bitOffset field is present (equal to bitOffset mod 8)
exactly for BOOL variables; in scenario S2 (outputSize 1) the table maps Out
to PDI byte 0, In_U16 to byte 1, and In_Bool to byte 4 with bit 0. -/
theorem mapping_pdi_offsets (cfg : EniConfig) (pi : ProcessImage)
    (hpi : cfg.processImage = some pi) :
    (∀ kv ∈ buildProcessDataMappings cfg,
      ∃ v : ProcessVariable,
        ((kv.2.isInput = true ∧ v ∈ pi.inputs.vars) ∨
         (kv.2.isInput = false ∧ v ∈ pi.outputs.vars)) ∧
        kv.2.pdiByteOffset =
          (if kv.2.isInput then pi.outputs.byteSize else 0) + v.bitOffset / 8 ∧
        kv.2.bitOffset =
          (if v.dataType = "BOOL" then some (v.bitOffset % 8) else none)) ∧
    (mapGet (buildProcessDataMappings s2Config) "Out"
        = some ⟨"Out", 0, none, "BYTE", 1, false, 8, none, none⟩ ∧
      mapGet (buildProcessDataMappings s2Config) "In_U16"
        = some ⟨"In_U16", 1, none, "UINT16", 1, true, 16, none, none⟩ ∧
      mapGet (buildProcessDataMappings s2Config) "In_Bool"
        = some ⟨"In_Bool", 4, some 0, "BOOL", 1, true, 1, none, none⟩) := by
  constructor
  · intro kv hkv
    obtain ⟨v, isIn, hhalf, _, he⟩ :=
      buildProcessDataMappings_mem cfg pi hpi kv hkv
    subst he
    exact ⟨v, hhalf, rfl, rfl⟩
  · refine ⟨?_, ?_, ?_⟩ <;> rfl

/-- Witness for the PDI-offset theorem at the S2 description: the three
scenario equalities, obtained by applying the theorem at s2Config. -/
theorem mapping_pdi_offsets_witness :
    mapGet (buildProcessDataMappings s2Config) "Out"
        = some ⟨"Out", 0, none, "BYTE", 1, false, 8, none, none⟩ ∧
      mapGet (buildProcessDataMappings s2Config) "In_U16"
        = some ⟨"In_U16", 1, none, "UINT16", 1, true, 16, none, none⟩ ∧
      mapGet (buildProcessDataMappings s2Config) "In_Bool"
        = some ⟨"In_Bool", 4, some 0, "BOOL", 1, true, 1, none, none⟩ :=
  (mapping_pdi_offsets s2Config _ rfl).2

/-- Network Description of the basic-mapping unit test: one slave Drive1
covering output bits [0, 16) and input bits [0, 16), with process-image
variables Drive1.Control (UINT16 output at bit 0) and Drive1.Status (UINT16
input at bit 0). -/
def basicMappingConfig : EniConfig where
  master := {}
  slaves := [{
    name := "Drive1",
    processData := some {
      inputOffset := some 0, inputBitLength := some 16,
      outputOffset := some 0, outputBitLength := some 16 },
    pollTime := some 20 }]
  processImage := some {
    inputs := {
      byteSize := 2,
      vars := [⟨"Drive1.Status", "UINT16", 16, 0⟩] },
    outputs := {
      byteSize := 2,
      vars := [⟨"Drive1.Control", "UINT16", 16, 0⟩] } }

/-- C10: the mapping table's slaveIndex is 1-based.  Every entry the engine
produces stores the matched slave's zero-based array position plus one, so
the stored index is always at least 1; in the basic-mapping test
configuration the matcher selects array position 0 for both variables while
the stored entries carry slaveIndex 1 (unlike the zero-based index that the
facade's per-slave operations pass to the driver unchanged). -/
theorem mapping_slave_index_one_based (cfg : EniConfig) (pi : ProcessImage)
    (hpi : cfg.processImage = some pi) :
    (∀ kv ∈ buildProcessDataMappings cfg,
      ∃ (v : ProcessVariable) (isIn : Bool),
        0 ≤ matchVariableToSlave v.bitOffset isIn cfg.slaves ∧
        kv.2.slaveIndex =
          (matchVariableToSlave v.bitOffset isIn cfg.slaves).toNat + 1 ∧
        1 ≤ kv.2.slaveIndex) ∧
    (matchVariableToSlave 0 true basicMappingConfig.slaves = Int.ofNat 0 ∧
      matchVariableToSlave 0 false basicMappingConfig.slaves = Int.ofNat 0 ∧
      mapGet (buildProcessDataMappings basicMappingConfig) "Drive1.Status"
        = some ⟨"Drive1.Status", 2, none, "UINT16", 1, true, 16, none, none⟩ ∧
      mapGet (buildProcessDataMappings basicMappingConfig) "Drive1.Control"
        = some ⟨"Drive1.Control", 0, none, "UINT16", 1, false, 16, none,
            none⟩) := by
  constructor
  · intro kv hkv
    obtain ⟨v, isIn, _, hle, he⟩ :=
      buildProcessDataMappings_mem cfg pi hpi kv hkv
    subst he
    exact ⟨v, isIn, hle, rfl, Nat.le_add_left 1 _⟩
  · exact ⟨rfl, rfl, rfl, rfl⟩

/-- Witness for the 1-based slaveIndex theorem at the basic-mapping test
configuration: the matcher returns zero-based position 0 and the stored
entries carry slaveIndex 1. -/
theorem mapping_slave_index_one_based_witness :
    matchVariableToSlave 0 true basicMappingConfig.slaves = Int.ofNat 0 ∧
      matchVariableToSlave 0 false basicMappingConfig.slaves = Int.ofNat 0 ∧
      mapGet (buildProcessDataMappings basicMappingConfig) "Drive1.Status"
        = some ⟨"Drive1.Status", 2, none, "UINT16", 1, true, 16, none, none⟩ ∧
      mapGet (buildProcessDataMappings basicMappingConfig) "Drive1.Control"
        = some ⟨"Drive1.Control", 0, none, "UINT16", 1, false, 16, none,
            none⟩ :=
  (mapping_slave_index_one_based basicMappingConfig _ rfl).2

end JnEcMaster

namespace JnEcMaster

/-- CoE emergency record of ec_types.ts (EmergencyEvent). -/
structure EmergencyEvent where
  slaveId : Nat
  errorCode : Nat
  errorReg : Nat
deriving DecidableEq

/-- Indices of the slaves the emergency poller considers: the positions of
the description's slaves whose supportsCoE flag is strictly true
(startEmergencyPolling's coeSlaves filter). -/
def coeSlaveIndices (slaves : List EniSlaveConfig) : List Nat :=
  (slaves.enum.filter (fun p => p.2.supportsCoE == some true)).map
    (fun p => p.1)

/-- JavaScript Map.get on the per-slave last-emergency store. -/
def lookupLast (m : List (Nat × EmergencyEvent)) (s : Nat) :
    Option EmergencyEvent :=
  (m.find? (fun p => p.1 == s)).map (fun p => p.2)

/-- JavaScript Map.set on the per-slave last-emergency store. -/
def storeLast (m : List (Nat × EmergencyEvent)) (s : Nat)
    (e : EmergencyEvent) : List (Nat × EmergencyEvent) :=
  if m.any (fun p => p.1 == s) then
    m.map (fun p => if p.1 == s then (s, e) else p)
  else m ++ [(s, e)]

/-- One tick of the emergency polling loop (startEmergencyPolling): poll the
driver's last-global-emergency slot; when it names a CoE slave and is not
equal, in errorCode or errorRegister, to the last event stored for that
slave, emit it and store it; otherwise emit nothing and keep the store. -/
def emergencyStep (coeIdx : List Nat) (last : List (Nat × EmergencyEvent))
    (polled : Option EmergencyEvent) :
    List (Nat × EmergencyEvent) × Option EmergencyEvent :=
  match polled with
  | none => (last, none)
  | some e =>
    if coeIdx.contains e.slaveId then
      match lookupLast last e.slaveId with
      | none => (storeLast last e.slaveId e, some e)
      | some le =>
        if le.errorCode ≠ e.errorCode ∨ le.errorReg ≠ e.errorReg then
          (storeLast last e.slaveId e, some e)
        else (last, none)
    else (last, none)

/-- Run the emergency poller over a sequence of polled slots, collecting the
emitted events in order. -/
def emergencyRun (coeIdx : List Nat) :
    List (Nat × EmergencyEvent) → List (Option EmergencyEvent) →
    List (Nat × EmergencyEvent) × List EmergencyEvent
  | last, [] => (last, [])
  | last, p :: ps =>
    let q := emergencyStep coeIdx last p
    let r := emergencyRun coeIdx q.1 ps
    (r.1, (match q.2 with | some e => [e] | none => []) ++ r.2)

/-- Deduplication shape of an emitted per-slave event sequence: each event
differs from the event before it (or from the given initial stored event) in
errorCode or errorRegister. -/
def dedupOk : Option EmergencyEvent → List EmergencyEvent → Prop
  | _, [] => True
  | lastv, e :: rest =>
    (lastv = none ∨ ∃ le, lastv = some le ∧
      (le.errorCode ≠ e.errorCode ∨ le.errorReg ≠ e.errorReg)) ∧
    dedupOk (some e) rest

theorem find?_overwrite_self (s : Nat) (e : EmergencyEvent) :
    ∀ m : List (Nat × EmergencyEvent), m.any (fun p => p.1 == s) = true →
      (m.map (fun p => if p.1 == s then (s, e) else p)).find?
        (fun p => p.1 == s) = some (s, e) := by
  intro m
  induction m with
  | nil => intro h; simp at h
  | cons p ps ih =>
    intro h
    by_cases hp : (p.1 == s) = true
    · simp [List.find?, hp]
    · have hp2 : (p.1 == s) = false := by simpa using hp
      have h2 : ps.any (fun p => p.1 == s) = true := by
        simpa [hp2] using h
      rw [List.map_cons, if_neg hp]
      simp only [List.find?, hp2]
      exact ih h2

theorem find?_append_self (s : Nat) (e : EmergencyEvent) :
    ∀ m : List (Nat × EmergencyEvent), m.any (fun p => p.1 == s) = false →
      (m ++ [(s, e)]).find? (fun p => p.1 == s) = some (s, e) := by
  intro m
  induction m with
  | nil => intro _; simp [List.find?]
  | cons p ps ih =>
    intro h
    simp only [List.any_cons, Bool.or_eq_false_iff] at h
    simp only [List.cons_append, List.find?, h.1]
    exact ih h.2

theorem find?_overwrite_ne (s s2 : Nat) (e : EmergencyEvent) (hne : s ≠ s2) :
    ∀ m : List (Nat × EmergencyEvent),
      (m.map (fun p => if p.1 == s then (s, e) else p)).find?
        (fun p => p.1 == s2) = m.find? (fun p => p.1 == s2) := by
  intro m
  induction m with
  | nil => rfl
  | cons p ps ih =>
    by_cases hp : (p.1 == s) = true
    · have hps : p.1 = s := by simpa using hp
      have hp2 : (p.1 == s2) = false := by simp [hps, hne]
      have hs2 : (s == s2) = false := by simp [hne]
      simp only [List.map_cons, if_pos hp, List.find?, hs2, hp2]
      exact ih
    · by_cases hp2 : (p.1 == s2) = true
      · simp only [List.map_cons, if_neg hp, List.find?, hp2]
      · have hp2f : (p.1 == s2) = false := by simpa using hp2
        simp only [List.map_cons, if_neg hp, List.find?, hp2f]
        exact ih

theorem find?_append_ne (s s2 : Nat) (e : EmergencyEvent) (hne : s ≠ s2)
    (m : List (Nat × EmergencyEvent)) :
    (m ++ [(s, e)]).find? (fun p => p.1 == s2)
      = m.find? (fun p => p.1 == s2) := by
  induction m with
  | nil =>
    have hs2 : (s == s2) = false := by simp [hne]
    simp [List.find?, hs2]
  | cons p ps ih =>
    by_cases hp2 : (p.1 == s2) = true
    · simp only [List.cons_append, List.find?, hp2]
    · have hp2f : (p.1 == s2) = false := by simpa using hp2
      simp only [List.cons_append, List.find?, hp2f]
      exact ih

theorem lookupLast_storeLast_self (m : List (Nat × EmergencyEvent))
    (s : Nat) (e : EmergencyEvent) :
    lookupLast (storeLast m s e) s = some e := by
  unfold storeLast lookupLast
  by_cases h : m.any (fun p => p.1 == s)
  · rw [if_pos h, find?_overwrite_self s e m h]
    rfl
  · rw [if_neg h,
      find?_append_self s e m (by simp only [Bool.not_eq_true] at h; exact h)]
    rfl

theorem lookupLast_storeLast_ne (m : List (Nat × EmergencyEvent))
    (s s2 : Nat) (e : EmergencyEvent) (hne : s ≠ s2) :
    lookupLast (storeLast m s e) s2 = lookupLast m s2 := by
  unfold storeLast lookupLast
  by_cases h : m.any (fun p => p.1 == s)
  · rw [if_pos h, find?_overwrite_ne s s2 e hne m]
  · rw [if_neg h, find?_append_ne s s2 e hne m]

theorem emergencyStep_inv (coeIdx : List Nat)
    (last : List (Nat × EmergencyEvent)) (p : Option EmergencyEvent) :
    ((emergencyStep coeIdx last p).2 = none ∧
      (emergencyStep coeIdx last p).1 = last) ∨
    (∃ e, p = some e ∧ (emergencyStep coeIdx last p).2 = some e ∧
      coeIdx.contains e.slaveId = true ∧
      (emergencyStep coeIdx last p).1 = storeLast last e.slaveId e ∧
      (lookupLast last e.slaveId = none ∨
        ∃ le, lookupLast last e.slaveId = some le ∧
          (le.errorCode ≠ e.errorCode ∨ le.errorReg ≠ e.errorReg))) := by
  cases p with
  | none => left; exact ⟨rfl, rfl⟩
  | some e =>
    by_cases hc : (coeIdx.contains e.slaveId) = true
    · have hm : e.slaveId ∈ coeIdx := by simpa using hc
      cases hl : lookupLast last e.slaveId with
      | none =>
        right
        refine ⟨e, rfl, ?_, hc, ?_, Or.inl hl⟩
        · simp [emergencyStep, hm, hl]
        · simp [emergencyStep, hm, hl]
      | some le =>
        by_cases hd : le.errorCode ≠ e.errorCode ∨ le.errorReg ≠ e.errorReg
        · right
          refine ⟨e, rfl, ?_, hc, ?_, Or.inr ⟨le, hl, hd⟩⟩
          · simp [emergencyStep, hm, hl, hd]
          · simp [emergencyStep, hm, hl, hd]
        · left
          constructor <;> simp [emergencyStep, hm, hl, hd]
    · have hm : e.slaveId ∉ coeIdx := by simpa using hc
      left
      constructor <;> simp [emergencyStep, hm]

theorem emergencyRun_coe (coeIdx : List Nat) :
    ∀ (polls : List (Option EmergencyEvent))
      (last : List (Nat × EmergencyEvent)),
      ∀ e ∈ (emergencyRun coeIdx last polls).2,
        coeIdx.contains e.slaveId = true := by
  intro polls
  induction polls with
  | nil => intro last e he; simp [emergencyRun] at he
  | cons p ps ih =>
    intro last e he
    simp only [emergencyRun] at he
    rw [List.mem_append] at he
    rcases he with he | he
    · rcases emergencyStep_inv coeIdx last p with ⟨h2, _⟩ |
          ⟨e2, _, h2, hc, _, _⟩
      · rw [h2] at he; simp at he
      · rw [h2] at he
        simp at he
        subst he
        exact hc
    · exact ih _ e he

theorem emergencyRun_dedup (coeIdx : List Nat) :
    ∀ (polls : List (Option EmergencyEvent))
      (last : List (Nat × EmergencyEvent)) (s : Nat),
      dedupOk (lookupLast last s)
        ((emergencyRun coeIdx last polls).2.filter
          (fun e => e.slaveId == s)) := by
  intro polls
  induction polls with
  | nil => intro last s; simp [emergencyRun, dedupOk]
  | cons p ps ih =>
    intro last s
    simp only [emergencyRun]
    rw [List.filter_append]
    rcases emergencyStep_inv coeIdx last p with ⟨h2, h1⟩ |
        ⟨e, _, h2, _, h1, hdiff⟩
    · rw [h2, h1]
      simpa using ih last s
    · rw [h2, h1]
      by_cases hs : (e.slaveId == s) = true
      · have hse : e.slaveId = s := by simpa using hs
        simp only [List.filter_cons, List.filter_nil, hs, if_pos,
          List.cons_append, List.nil_append]
        refine ⟨?_, ?_⟩
        · rw [hse] at hdiff
          exact hdiff
        · have h3 := ih (storeLast last e.slaveId e) s
          rw [hse, lookupLast_storeLast_self] at h3
          rw [hse]
          exact h3
      · have hsf : (e.slaveId == s) = false := by simpa using hs
        simp only [List.filter_cons, List.filter_nil, hsf,
          List.nil_append]
        have hne : e.slaveId ≠ s := by simpa using hsf
        have h3 := ih (storeLast last e.slaveId e) s
        rw [lookupLast_storeLast_ne last e.slaveId s e hne] at h3
        exact h3

/-- C7: emergency deduplication.  Over any sequence of emergency-poll ticks
started with an empty last-event store, every emitted event names a
CoE-capable slave of the description, and for each slave the sequence of
emitted events never repeats the previous (errorCode, errorRegister) pair,
so at most one event is emitted per distinct triple in a row and none for a
non-CoE slave. -/
theorem emergency_dedup (slaves : List EniSlaveConfig)
    (polls : List (Option EmergencyEvent)) :
    (∀ e ∈ (emergencyRun (coeSlaveIndices slaves) [] polls).2,
      (coeSlaveIndices slaves).contains e.slaveId = true) ∧
    (∀ s : Nat, dedupOk none
      ((emergencyRun (coeSlaveIndices slaves) [] polls).2.filter
        (fun e => e.slaveId == s))) :=
  ⟨emergencyRun_coe (coeSlaveIndices slaves) polls [],
   fun s => emergencyRun_dedup (coeSlaveIndices slaves) polls [] s⟩

/-- Witness for the deduplication theorem at scenario S5: one CoE slave,
the same emergency polled twice and then a changed error code; the theorem
applies and the run indeed emits exactly the two distinct events. -/
theorem emergency_dedup_witness :
    (∀ e ∈ (emergencyRun
        (coeSlaveIndices [⟨"s0", none, none, none, some true⟩]) []
        [some ⟨0, 0x1234, 0x56⟩, some ⟨0, 0x1234, 0x56⟩,
          some ⟨0, 0x5678, 0x56⟩]).2,
      (coeSlaveIndices [⟨"s0", none, none, none, some true⟩]).contains
        e.slaveId = true) ∧
    (emergencyRun (coeSlaveIndices [⟨"s0", none, none, none, some true⟩]) []
        [some ⟨0, 0x1234, 0x56⟩, some ⟨0, 0x1234, 0x56⟩,
          some ⟨0, 0x5678, 0x56⟩]).2
      = [⟨0, 0x1234, 0x56⟩, ⟨0, 0x5678, 0x56⟩] :=
  ⟨(emergency_dedup [⟨"s0", none, none, none, some true⟩]
      [some ⟨0, 0x1234, 0x56⟩, some ⟨0, 0x1234, 0x56⟩,
        some ⟨0, 0x5678, 0x56⟩]).1,
   by decide⟩

end JnEcMaster

namespace JnEcMaster

/-- Sync-manager watchdog register address (RegisterAddress.SM_WATCHDOG in
ec_types.ts). -/
def SM_WATCHDOG : Nat := 0x0420

/-- Wire-visible actions of a requestState call: a per-slave register write,
a per-slave console warning after a failed write, and the AL-control state
request handed to the driver. -/
inductive WireAction
  | regWrite (slaveIndex : Nat) (addr : Nat) (value : Nat)
  | warn (slaveIndex : Nat)
  | alRequest (target : SlaveState)
deriving DecidableEq

/-- Trace of configureWatchdogFromConfig: nothing when watchdogTimeoutMs is
unset; otherwise, for every slave index in order, one write of
round(ms × 10) to register 0x0420, followed by a warning when the driver
rejects that slave's write (the loop continues regardless). -/
def configureWatchdogTrace (watchdogTimeoutMs : Option Nat)
    (slaveCount : Nat) (fails : Nat → Bool) : List WireAction :=
  match watchdogTimeoutMs with
  | none => []
  | some ms =>
    (List.range slaveCount).flatMap (fun i =>
      WireAction.regWrite i SM_WATCHDOG (ms * 10) ::
        (if fails i then [WireAction.warn i] else []))

/-- Trace of EcMaster.requestState: the watchdog configuration runs exactly
when the target is SAFE_OP, the current state is PRE_OP and the
description's watchdogTimeoutMs is set, and always precedes the AL-control
request for the target state. -/
def requestStateTrace (cfg : EniConfig)
    (previousState targetState : SlaveState) (fails : Nat → Bool) :
    List WireAction :=
  (if targetState = SlaveState.SAFE_OP ∧ previousState = SlaveState.PRE_OP ∧
      cfg.master.watchdogTimeoutMs ≠ none then
    configureWatchdogTrace cfg.master.watchdogTimeoutMs cfg.slaves.length
      fails
  else []) ++ [WireAction.alRequest targetState]

/-- C8: watchdog pre-gate.  When requestState targets SafeOp from PreOp and
watchdogTimeoutMs = ms is set, the value ms × 10 is written to register
0x0420 for every slave of the description strictly before the AL-control
request, a slave whose write fails adds only a warning (the AL-control
request is still issued for any failure pattern); when the precondition does
not hold the trace is the AL-control request alone, with no watchdog
register write. -/
theorem watchdog_pre_gate (cfg : EniConfig) (prev target : SlaveState)
    (fails : Nat → Bool) :
    (∀ ms, cfg.master.watchdogTimeoutMs = some ms →
      target = SlaveState.SAFE_OP → prev = SlaveState.PRE_OP →
      ∃ pre, requestStateTrace cfg prev target fails
          = pre ++ [WireAction.alRequest target] ∧
        ∀ i < cfg.slaves.length,
          WireAction.regWrite i SM_WATCHDOG (ms * 10) ∈ pre ∧
          (fails i = true → WireAction.warn i ∈ pre)) ∧
    (¬(target = SlaveState.SAFE_OP ∧ prev = SlaveState.PRE_OP ∧
        cfg.master.watchdogTimeoutMs ≠ none) →
      requestStateTrace cfg prev target fails
        = [WireAction.alRequest target]) := by
  constructor
  · intro ms hms ht hp
    subst ht
    subst hp
    refine ⟨configureWatchdogTrace cfg.master.watchdogTimeoutMs
      cfg.slaves.length fails, ?_, ?_⟩
    · unfold requestStateTrace
      rw [if_pos ⟨rfl, rfl, by rw [hms]; exact Option.some_ne_none ms⟩]
    · intro i hi
      rw [hms]
      unfold configureWatchdogTrace
      constructor
      · rw [List.mem_flatMap]
        exact ⟨i, List.mem_range.mpr hi, List.mem_cons_self _ _⟩
      · intro hf
        rw [List.mem_flatMap]
        refine ⟨i, List.mem_range.mpr hi, List.mem_cons_of_mem _ ?_⟩
        rw [if_pos hf]
        exact List.mem_singleton.mpr rfl
  · intro hneg
    unfold requestStateTrace
    rw [if_neg hneg]
    rfl

/-- Witness for the watchdog pre-gate at a two-slave description with
watchdogTimeoutMs = 200, where the second slave rejects the write: value
2000 goes to register 0x0420 for both slaves before the AL-control request,
and the rejection yields only the warning. -/
theorem watchdog_pre_gate_witness :
    ∃ pre, requestStateTrace
        ⟨⟨some 200⟩, [⟨"a", none, none, none, none⟩,
          ⟨"b", none, none, none, none⟩], none⟩
        SlaveState.PRE_OP SlaveState.SAFE_OP (fun i => i == 1)
      = pre ++ [WireAction.alRequest SlaveState.SAFE_OP] ∧
    ∀ i < ([⟨"a", none, none, none, none⟩,
        ⟨"b", none, none, none, none⟩] : List EniSlaveConfig).length,
      WireAction.regWrite i SM_WATCHDOG (200 * 10) ∈ pre ∧
      ((fun i : Nat => i == 1) i = true → WireAction.warn i ∈ pre) :=
  (watchdog_pre_gate
    ⟨⟨some 200⟩, [⟨"a", none, none, none, none⟩,
      ⟨"b", none, none, none, none⟩], none⟩
    SlaveState.PRE_OP SlaveState.SAFE_OP (fun i => i == 1)).1
    200 rfl rfl rfl

end JnEcMaster

namespace JnEcMaster

/-- One poll of the mailbox resilience loop for one slave
(startMailboxPolling): the lastToggle handed to the driver is the stored
toggle, defaulting to the sentinel 2 on the first run; on driver result 1
the stored toggle becomes 1 when the last was 0 and 0 otherwise (covering
the sentinel); on any other result the stored toggle is unchanged.  Returns
the toggle passed to the driver and the stored toggle afterwards. -/
def pollMailboxStep (stored : Option Nat) (result : Int) :
    Nat × Option Nat :=
  let lastToggle := stored.getD 2
  if result = 1 then
    (lastToggle, some (if lastToggle = 0 then 1 else 0))
  else (lastToggle, stored)

/-- The sequence of lastToggle values passed to the driver over consecutive
polls with the given driver results. -/
def pollToggles (stored : Option Nat) : List Int → List Nat
  | [] => []
  | r :: rs =>
    let q := pollMailboxStep stored r
    q.1 :: pollToggles q.2 rs

theorem pollToggles_chain (st : Option Nat) :
    ∀ n : Nat, List.Chain' (fun a b => b = if a = 0 then 1 else 0)
      (pollToggles st (List.replicate n 1)) := by
  intro n
  induction n generalizing st with
  | zero => simp [pollToggles]
  | succ m ih =>
    rw [List.replicate_succ]
    simp only [pollToggles]
    rw [List.chain'_cons']
    refine ⟨?_, ih _⟩
    intro b hb
    cases m with
    | zero => simp [pollToggles] at hb
    | succ k =>
      rw [List.replicate_succ] at hb
      simp only [pollToggles, List.head?_cons, Option.mem_def,
        Option.some.injEq] at hb
      subst hb
      simp [pollMailboxStep]

/-- C9: mailbox toggle protocol.  With a driver whose checkMailbox always
reports new mail (result 1), consecutive polls for a slave pass lastToggle
values 2, 0, 1, 0, 1; the stored toggle is unchanged on result 0, follows
unknown(2) → 0, 0 → 1, 1 → 0 on result 1, and every run of consecutive
result-1 polls starts at the sentinel 2 and alternates by that flip rule
thereafter. -/
theorem mailbox_toggle_protocol :
    (pollToggles none (List.replicate 5 1) = [2, 0, 1, 0, 1]) ∧
    (∀ st : Option Nat, (pollMailboxStep st 0).2 = st) ∧
    (∀ t : Nat, (pollMailboxStep (some t) 1).2
      = some (if t = 0 then 1 else 0)) ∧
    ((pollMailboxStep none 1).2 = some 0) ∧
    (∀ n : Nat,
      (pollToggles none (List.replicate (n + 1) 1)).head? = some 2) ∧
    (∀ n : Nat, List.Chain' (fun a b => b = if a = 0 then 1 else 0)
      (pollToggles none (List.replicate (n + 1) 1))) := by
  refine ⟨by decide, ?_, ?_, by decide, ?_, fun n => pollToggles_chain none (n + 1)⟩
  · intro st
    simp [pollMailboxStep]
  · intro t
    simp [pollMailboxStep]
  · intro n
    rw [List.replicate_succ]
    simp [pollToggles, pollMailboxStep]

/-- Witness for the mailbox toggle protocol at the sentinel: a poll with
stored toggle 2 and driver result 1 stores toggle 0. -/
theorem mailbox_toggle_protocol_witness :
    (pollMailboxStep (some 2) 1).2 = some (if 2 = 0 then 1 else 0) :=
  mailbox_toggle_protocol.2.2.1 2

end JnEcMaster
